import Mathlib

/-!
# Verification of the jsonlines COPY format (jsonlines.c)

A shallow embedding of the JSON Lines COPY format implementation
(`jsonlines.c`) and proofs about it.  Bytes are modelled as natural
numbers (`10` is the newline byte, `0` the NUL byte, `46` the dot).
Fixed-capacity C buffers are modelled as lists of their valid bytes
(`len` is the list length) together with an explicit consumed index.
The byte source behind `CopyFromGetData` is modelled as the list of
chunks successive calls return; an exhausted list (or an empty chunk)
models a zero-byte read, which signals end of input.
-/

/-- Capacity of the input buffer (`INPUT_BUF_SIZE` in jsonlines.c). -/
def INPUT_BUF_CAPACITY : Nat := 65536

/-- Capacity of the raw-byte buffer (`RAW_BUF_SIZE` in jsonlines.c). -/
def RAW_BUF_CAPACITY : Nat := 65536

/-- Model of C `strchr(p, '\n')` on the unread portion of the
NUL-terminated input buffer: returns the offset of the first newline
byte (10), stopping early (returning `none`) at the first NUL byte (0),
exactly as `strchr` stops at a string terminator.  The sentinel NUL the
code writes at `input_buf[input_buf_len]` is modelled by returning
`none` when the list is exhausted. -/
def strchrNewline : List Nat → Option Nat
  | [] => none
  | b :: bs =>
    if b = 0 then none
    else if b = 10 then some 0
    else (strchrNewline bs).map (· + 1)

/-- Result of one `JsonLineReadLine` call: the returned flag (`true`
means end of input was reached before a newline), the line buffer, and
the final reader state (remaining source chunks, input buffer contents,
consumed index). -/
structure LineReadResult where
  eof : Bool
  line_buf : List Nat
  chunks : List (List Nat)
  input_buf : List Nat
  input_buf_index : Nat
  deriving Repr, DecidableEq

/-- The loop of `JsonLineReadLine` (jsonlines.c:257-306), uncompressed
path.  Each iteration scans the unread portion of the input buffer with
`strchr`; if a newline is found, the bytes before it are appended to the
line buffer and the newline is consumed; otherwise the whole unread
portion is appended and the buffer is refilled from the next source
chunk (`CopyFromGetData`), a zero-byte refill reporting end of input.
The C code checks for an empty buffer before scanning; scanning an empty
unread portion here yields `none` and falls into the same refill code,
which is equivalent. -/
def JsonLineReadLineLoop (line_buf : List Nat) (input_buf : List Nat)
    (input_buf_index : Nat) : List (List Nat) → LineReadResult
  | [] =>
    match strchrNewline (input_buf.drop input_buf_index) with
    | some j =>
      ⟨false, line_buf ++ (input_buf.drop input_buf_index).take j,
        [], input_buf, input_buf_index + j + 1⟩
    | none =>
      ⟨true, line_buf ++ input_buf.drop input_buf_index, [], [], 0⟩
  | c :: cs =>
    match strchrNewline (input_buf.drop input_buf_index) with
    | some j =>
      ⟨false, line_buf ++ (input_buf.drop input_buf_index).take j,
        c :: cs, input_buf, input_buf_index + j + 1⟩
    | none =>
      if c.length = 0 then
        ⟨true, line_buf ++ input_buf.drop input_buf_index, cs, [], 0⟩
      else
        JsonLineReadLineLoop (line_buf ++ input_buf.drop input_buf_index) c 0 cs

/-- State of the uncompressed read path: pending source chunks plus the
input buffer with its consumed index (`input_buf`, `input_buf_index`,
`input_buf_len` of `CopyFromStateJsonLines`). -/
structure FromState where
  chunks : List (List Nat)
  input_buf : List Nat
  input_buf_index : Nat
  deriving Repr, DecidableEq

/-- Model of `JsonLineReadLine` (jsonlines.c:249-309): reset the line
buffer, then run the read loop. -/
def JsonLineReadLine (st : FromState) : LineReadResult :=
  JsonLineReadLineLoop [] st.input_buf st.input_buf_index st.chunks

/-! ## Gzip read path (`read_gzip`, jsonlines.c:179-224) -/

/-- State used by the gzip read path: compressed source chunks, the raw
byte buffer (`raw_buf`, `raw_buf_index`, `raw_buf_len`) and the input
buffer the decompressed bytes are written to. -/
structure GzipReadState where
  chunks : List (List Nat)
  raw_buf : List Nat
  raw_buf_index : Nat
  input_buf : List Nat
  input_buf_index : Nat
  deriving Repr, DecidableEq

/-- The refill step at the top of `read_gzip` (jsonlines.c:186-191):
when `RAW_BUF_BYTES` is zero, fetch the next chunk from the source into
`raw_buf` and reset `raw_buf_index` to 0; otherwise leave the raw buffer
untouched. -/
def refill_raw (st : GzipReadState) : GzipReadState :=
  if st.raw_buf.length - st.raw_buf_index = 0 then
    match st.chunks with
    | [] => { st with raw_buf := [], raw_buf_index := 0 }
    | c :: cs => { st with chunks := cs, raw_buf := c, raw_buf_index := 0 }
  else st

/-- One `read_gzip` step (jsonlines.c:179-224).  The zlib inflate
transform is an external collaborator; it is modelled as a function
taking the available compressed bytes and the offered output capacity
and returning how many input bytes it consumed together with the bytes
it produced.  The step refills the raw buffer if it is empty, feeds all
available raw bytes to the transform with the whole input buffer
capacity as output space, advances `raw_buf_index` by exactly the number
of bytes consumed, and installs the produced bytes as the new input
buffer contents with index 0.  (The fatal `elog` on a transform error is
outside this model; `inflateModel` is total.) -/
def read_gzip (inflateModel : List Nat → Nat → Nat × List Nat)
    (st : GzipReadState) : GzipReadState :=
  let st1 := refill_raw st
  let avail := st1.raw_buf.drop st1.raw_buf_index
  let consumedProduced := inflateModel avail INPUT_BUF_CAPACITY
  { st1 with
    raw_buf_index := st1.raw_buf_index + consumedProduced.1,
    input_buf := consumedProduced.2,
    input_buf_index := 0 }

/-- The Stream Buffer invariant of spec section 3:
`0 ≤ index ≤ len ≤ capacity` (the lower bound is inherent in `Nat`). -/
def bufInvariant (buf : List Nat) (index capacity : Nat) : Prop :=
  index ≤ buf.length ∧ buf.length ≤ capacity

/-! ## Gzip write path (`write_gzip`, `end_deflate_gzip`,
`JsonLinesCopyToOneRow`, `JsonLinesCopyToEnd`) -/

/-- The compression algorithm selected for a copy operation
(`pg_compress_algorithm`, restricted to the values jsonlines supports). -/
inductive PgCompressAlgorithm where
  | PG_COMPRESSION_NONE
  | PG_COMPRESSION_GZIP
  deriving Repr, DecidableEq

/-- zlib flush hints used by the write path. -/
inductive ZFlushFlag where
  | Z_NO_FLUSH
  | Z_FINISH
  deriving Repr, DecidableEq

/-- Observable calls the write path makes into the zlib deflate
machinery: a `write_gzip` invocation (one deflate loop over the given
row bytes, every `deflate()` call of which uses the given flush flag)
and the final `deflateEnd` releasing the transform state. -/
inductive DeflateEvent where
  | deflateLoop (flag : ZFlushFlag) (data : List Nat)
  | deflateEndCall
  deriving Repr, DecidableEq

/-- Events emitted by `write_gzip` (jsonlines.c:150-177): one deflate
loop over `rowdata` with flush hint `flag`. -/
def write_gzipEvents (rowdata : List Nat) (flag : ZFlushFlag) : List DeflateEvent :=
  [DeflateEvent.deflateLoop flag rowdata]

/-- Events emitted by `end_deflate_gzip` (jsonlines.c:226-231): run the
deflate loop once more with `Z_FINISH` and zero new input, then release
the transform state with `deflateEnd`. -/
def end_deflate_gzipEvents : List DeflateEvent :=
  write_gzipEvents [] ZFlushFlag.Z_FINISH ++ [DeflateEvent.deflateEndCall]

/-- Deflate events emitted by one `JsonLinesCopyToOneRow` call
(jsonlines.c:524-552) for a row whose JSON text is `rowJson`: the
uncompressed path touches the deflate machinery not at all; the gzip
path feeds the row text plus a newline to `write_gzip` with
`Z_NO_FLUSH`. -/
def JsonLinesCopyToOneRowEvents (compression : PgCompressAlgorithm)
    (rowJson : List Nat) : List DeflateEvent :=
  match compression with
  | .PG_COMPRESSION_NONE => []
  | .PG_COMPRESSION_GZIP => write_gzipEvents (rowJson ++ [10]) ZFlushFlag.Z_NO_FLUSH

/-- Deflate events emitted by `JsonLinesCopyToEnd` (jsonlines.c:553-560):
only the gzip path runs `end_deflate_gzip`. -/
def JsonLinesCopyToEndEvents (compression : PgCompressAlgorithm) : List DeflateEvent :=
  match compression with
  | .PG_COMPRESSION_NONE => []
  | .PG_COMPRESSION_GZIP => end_deflate_gzipEvents

/-- Deflate events of a whole copy-to stream: the driver calls
`JsonLinesCopyToOneRow` once per row and then `JsonLinesCopyToEnd`
exactly once. -/
def copyToStreamEvents (compression : PgCompressAlgorithm)
    (rowJsons : List (List Nat)) : List DeflateEvent :=
  (rowJsons.flatMap (JsonLinesCopyToOneRowEvents compression)) ++
    JsonLinesCopyToEndEvents compression

/-- Recognizes the finish step among deflate events. -/
def isFinishEvent : DeflateEvent → Bool
  | DeflateEvent.deflateLoop ZFlushFlag.Z_FINISH _ => true
  | _ => false

/-! ## JSON values and the row decoder
(`JsonLinesCopyFromOneRow`, `GetJsonbValueAsCString`)

The jsonb value representation, with nested containers (`jbvBinary`)
omitted: the claims under verification only involve text, number,
boolean and null values.  Strings are byte lists, numbers are modelled
as integers (the numeric type itself is external to jsonlines.c). -/

inductive JsonbValue where
  | jbvNull
  | jbvBool (b : Bool)
  | jbvString (s : List Nat)
  | jbvNumeric (n : Int)
  deriving Repr, DecidableEq

/-- A parsed top-level JSON object: key/value pairs.  `jsonb_in` is an
external collaborator; the line text to object parse is abstracted and
the object itself stands for the parsed line. -/
abbrev JsonObject : Type := List (List Nat × JsonbValue)

/-- Modelled from the spec: `getKeyJsonValueFromContainer` (an external
jsonb helper, spec section 4.4 "look up a same-named key in the
top-level JSON object"): return the value stored under `key`, or `none`
when the object has no such key. -/
def getKeyJsonValue : JsonObject → List Nat → Option JsonbValue
  | [], _ => none
  | (k, v) :: rest, key => if k = key then some v else getKeyJsonValue rest key

/-- Decimal digits of `n`, least significant first, computed with
explicit fuel so that the definition is structurally recursive.  With
fuel at least `n` this agrees with `Nat.digits 10 n`. -/
def decimalDigitsRev : Nat → Nat → List Nat
  | 0, _ => []
  | _, 0 => []
  | fuel + 1, n + 1 => (n + 1) % 10 :: decimalDigitsRev fuel ((n + 1) / 10)

/-- Decimal byte representation of a natural number (ASCII digits,
most significant first); `0` renders as `"0"`. -/
def natToDecimalBytes (n : Nat) : List Nat :=
  if n = 0 then [48] else ((decimalDigitsRev n n).map (· + 48)).reverse

/-- Modelled from the spec: `numeric_out` (external, spec section 4.4
"numbers via their canonical numeric text form"), restricted to integral
numerics: optional leading minus sign (byte 45) followed by the decimal
digits. -/
def numeric_out : Int → List Nat
  | Int.ofNat n => natToDecimalBytes n
  | Int.negSucc n => 45 :: natToDecimalBytes (n + 1)

/-- The bytes of the ASCII string "true". -/
def trueBytes : List Nat := [116, 114, 117, 101]

/-- The bytes of the ASCII string "false". -/
def falseBytes : List Nat := [102, 97, 108, 115, 101]

/-- Model of `GetJsonbValueAsCString` (jsonlines.c:359-395): render a jsonb value
to the text handed to the column's input function.  Booleans render as
"true"/"false", strings are copied verbatim, numerics go through
`numeric_out`.  The `jbvNull` case is unreachable (handled by the
caller) and renders as the empty string. -/
def GetJsonbValueAsCString : JsonbValue → List Nat
  | JsonbValue.jbvNull => []
  | JsonbValue.jbvBool b => if b then trueBytes else falseBytes
  | JsonbValue.jbvString s => s
  | JsonbValue.jbvNumeric n => numeric_out n

/-- A typed column value (the `Datum` the external input function
produces), for columns of text, integral-number or boolean type. -/
inductive CellValue where
  | textVal (s : List Nat)
  | numberVal (n : Int)
  | boolVal (b : Bool)
  deriving Repr, DecidableEq

/-- Column types used to instantiate the external input functions. -/
inductive ColType where
  | text
  | number
  | boolean
  deriving Repr, DecidableEq

/-- Is the byte an ASCII decimal digit? -/
def isDigitByte (b : Nat) : Bool := 48 ≤ b && b ≤ 57

/-- Parse an unsigned decimal byte string. -/
def parseDecimalNat (bs : List Nat) : Option Nat :=
  if bs ≠ [] ∧ bs.all isDigitByte then
    some (Nat.ofDigits 10 ((bs.map (fun b => b - 48)).reverse))
  else none

/-- Parse an optionally minus-signed decimal byte string. -/
def parseDecimalInt (bs : List Nat) : Option Int :=
  if bs.head? = some 45 then
    (parseDecimalNat bs.tail).map (fun n => -(Int.ofNat n))
  else
    (parseDecimalNat bs).map (fun n => Int.ofNat n)

/-- Modelled from the spec: the external per-column text-to-value
converters invoked through `InputFunctionCallSafe` (spec section 6
"convert text to typed value(text, target_type) → value | error"),
for the three column types the claims involve. -/
def inputFunction : ColType → List Nat → Option CellValue
  | ColType.text, s => some (CellValue.textVal s)
  | ColType.number, s => (parseDecimalInt s).map CellValue.numberVal
  | ColType.boolean, s =>
    if s = trueBytes then some (CellValue.boolVal true)
    else if s = falseBytes then some (CellValue.boolVal false)
    else none

/-- Does the typed value match the column type? -/
def cellHasType : ColType → CellValue → Bool
  | ColType.text, CellValue.textVal _ => true
  | ColType.number, CellValue.numberVal _ => true
  | ColType.boolean, CellValue.boolVal _ => true
  | _, _ => false

/-- Bounded check that every non-null cell of a row matches its
column's declared type (used to state the round-trip hypotheses in an
executable form). -/
def rowMatchesTypes (tys : List ColType) (row : List (Option CellValue)) : Bool :=
  (List.range tys.length).all (fun i =>
    match row[i]?, tys[i]? with
    | some (some v), some t => cellHasType t v
    | _, _ => true)

/-- The JSON form of a typed column value (how the external
`row_to_json` renders each datum). -/
def datumToJsonb : CellValue → JsonbValue
  | CellValue.textVal s => JsonbValue.jbvString s
  | CellValue.numberVal n => JsonbValue.jbvNumeric n
  | CellValue.boolVal b => JsonbValue.jbvBool b

/-- The JSON form of one cell: JSON null for a null cell, otherwise the
JSON form of the typed value. -/
def cellJson : Option CellValue → JsonbValue
  | none => JsonbValue.jbvNull
  | some v => datumToJsonb v

/-- Modelled from the spec: the JSON object `JsonLinesCopyToOneRow`
(jsonlines.c:524-552) produces for one row via the external
`row_to_json` (spec section 4.5: one JSON object whose keys are the
column names in schema order and whose values are the JSON-encoded form
of each column value, or JSON null).  The subsequent text serialization
by `row_to_json` and the text parse by `jsonb_in` on the read side are
external collaborators, modelled as mutually inverse, so the wire line
is represented by the object itself. -/
def JsonLinesCopyToOneRowObject (colnames : List (List Nat))
    (row : List (Option CellValue)) : JsonObject :=
  List.zipWith (fun name cell => (name, cellJson cell)) colnames row

/-- The per-column decode loop of `JsonLinesCopyFromOneRow`
(jsonlines.c:424-463), generic in the datum type `α`.  `tupdesc` pairs
each attribute's name with its external input function; `attnumlist` is
the list of 1-based target attribute numbers.  For each attribute the
key with the column's name is looked up in the parsed object; an absent
key or a JSON null records the cell as null; otherwise the value is
rendered with `GetJsonbValueAsCString` and converted by the input
function, a conversion failure raising the fatal `elog(ERROR)`
(modelled as `Except.error`). -/
def JsonLinesDecodeColumns (tupdesc : List (List Nat × (List Nat → Option α)))
    (attnumlist : List Nat) (obj : JsonObject)
    (values : List (Option α)) (nulls : List Bool) :
    Except (List Nat) (List (Option α) × List Bool) :=
  match attnumlist with
  | [] => Except.ok (values, nulls)
  | attnum :: rest =>
    let att := tupdesc.getD (attnum - 1) ([], fun _ => none)
    match getKeyJsonValue obj att.1 with
    | none => JsonLinesDecodeColumns tupdesc rest obj values (nulls.set (attnum - 1) true)
    | some v =>
      if v = JsonbValue.jbvNull then
        JsonLinesDecodeColumns tupdesc rest obj values (nulls.set (attnum - 1) true)
      else
        match att.2 (GetJsonbValueAsCString v) with
        | none => Except.error att.1
        | some d =>
          JsonLinesDecodeColumns tupdesc rest obj
            (values.set (attnum - 1) (some d)) (nulls.set (attnum - 1) false)

/-- The abstract content of a decoded row: per column, `none` when the
null flag is set, otherwise the value slot.  (The C code leaves a stale
datum behind a set null flag; the flag makes the cell null.) -/
def decodedCells (values : List (Option α)) (nulls : List Bool) : List (Option α) :=
  List.zipWith (fun v b => if b then none else v) values nulls

/-- Model of `JsonLinesCopyFromOneRow` (jsonlines.c:397-473): read one line; a
line-read reporting end of input returns `false` to the driver (no row,
modelled as `Except.ok none`); otherwise the line is parsed by the
external `jsonb_in` (modelled by the `parseJsonb` parameter), a parse
failure raising the fatal `elog(ERROR)`, and the columns are decoded
into the `values`/`nulls` arrays. -/
def JsonLinesCopyFromOneRow (parseJsonb : List Nat → Option JsonObject)
    (tupdesc : List (List Nat × (List Nat → Option α))) (attnumlist : List Nat)
    (st : FromState) (values : List (Option α)) (nulls : List Bool) :
    Except (List Nat) (Option (List (Option α) × List Bool) × FromState) :=
  let r := JsonLineReadLine st
  let st' : FromState := ⟨r.chunks, r.input_buf, r.input_buf_index⟩
  if r.eof then Except.ok (none, st')
  else
    match parseJsonb r.line_buf with
    | none => Except.error r.line_buf
    | some obj =>
      match JsonLinesDecodeColumns tupdesc attnumlist obj values nulls with
      | Except.error e => Except.error e
      | Except.ok vn => Except.ok (some vn, st')

/-- The tuple descriptor built from column names and types, pairing each
name with the input function of the column's type
(`JsonLinesCopyFromInFunc` resolves exactly one input function per
attribute type). -/
def tupdescOf (cols : List (List Nat × ColType)) :
    List (List Nat × (List Nat → Option CellValue)) :=
  cols.map (fun p => (p.1, inputFunction p.2))

/-- Decoding a sequence of already-parsed lines the way the copy-from
driver does: one `JsonLinesCopyFromOneRow` per line, the `values` and
`nulls` arrays being reused (threaded) from row to row, collecting each
row's decoded cells. -/
def decodeRowsThreaded (tupdesc : List (List Nat × (List Nat → Option α)))
    (attnumlist : List Nat) :
    List JsonObject → List (Option α) → List Bool →
      Except (List Nat) (List (List (Option α)))
  | [], _, _ => Except.ok []
  | obj :: objs, values, nulls =>
    match JsonLinesDecodeColumns tupdesc attnumlist obj values nulls with
    | Except.error e => Except.error e
    | Except.ok vn =>
      match decodeRowsThreaded tupdesc attnumlist objs vn.1 vn.2 with
      | Except.error e => Except.error e
      | Except.ok rest => Except.ok (decodedCells vn.1 vn.2 :: rest)

/-! ## Compression selection on the read path
(`JsonLinesCopyFromStart`, jsonlines.c:323-338) -/

/-- Model of C `strrchr(s, c)`: the suffix of `s` starting at the last
occurrence of `c`, or `none` (a NULL pointer) when `c` does not occur. -/
def strrchrSuffix (s : List Nat) (c : Nat) : Option (List Nat) :=
  match s with
  | [] => none
  | b :: rest =>
    match strrchrSuffix rest c with
    | some suf => some suf
    | none => if b = c then some (b :: rest) else none

/-- The bytes of the ASCII string ".gz". -/
def gzSuffixBytes : List Nat := [46, 103, 122]

/-- The compression selection of `JsonLinesCopyFromStart`
(jsonlines.c:326-338): take the suffix of the file name from its last
dot and compare it with ".gz".  When the file name contains no dot,
`strrchr` returns NULL and the `strcmp(extension, ".gz")` call
dereferences a null pointer; that crash is modelled as `none`. -/
def JsonLinesCopyFromStartCompression (filename : List Nat) :
    Option PgCompressAlgorithm :=
  match strrchrSuffix filename 46 with
  | none => none
  | some ext =>
    if ext = gzSuffixBytes then some PgCompressAlgorithm.PG_COMPRESSION_GZIP
    else some PgCompressAlgorithm.PG_COMPRESSION_NONE

/-! ## Lemmas about the column decoder -/

/-- A successful decode leaves the lengths of the `values` and `nulls`
arrays unchanged. -/
theorem JsonLinesDecodeColumns_length {α : Type}
    {tupdesc : List (List Nat × (List Nat → Option α))} {obj : JsonObject} :
    ∀ {attnumlist : List Nat} {values : List (Option α)} {nulls : List Bool}
      {V : List (Option α)} {N : List Bool},
      JsonLinesDecodeColumns tupdesc attnumlist obj values nulls =
        Except.ok (V, N) →
      V.length = values.length ∧ N.length = nulls.length := by
  intro attnumlist
  induction attnumlist with
  | nil =>
    intro values nulls V N h
    simp only [JsonLinesDecodeColumns, Except.ok.injEq, Prod.mk.injEq] at h
    rw [← h.1, ← h.2]
    exact ⟨rfl, rfl⟩
  | cons a rest ih =>
    intro values nulls V N h
    cases hk : getKeyJsonValue obj (tupdesc.getD (a - 1) ([], fun _ => none)).1 with
    | none =>
      simp only [JsonLinesDecodeColumns, hk] at h
      simpa using ih h
    | some v =>
      simp only [JsonLinesDecodeColumns, hk] at h
      by_cases hv : v = JsonbValue.jbvNull
      · rw [if_pos hv] at h
        simpa using ih h
      · rw [if_neg hv] at h
        cases hc : (tupdesc.getD (a - 1) ([], fun _ => none)).2
            (GetJsonbValueAsCString v) with
        | none =>
          simp only [hc] at h
          exact Except.noConfusion h
        | some d =>
          simp only [hc] at h
          simpa using ih h

/-- Positions that no processed attribute number addresses are left
untouched by the column decoder. -/
theorem JsonLinesDecodeColumns_stable {α : Type}
    {tupdesc : List (List Nat × (List Nat → Option α))} {obj : JsonObject} :
    ∀ {attnumlist : List Nat} {values : List (Option α)} {nulls : List Bool}
      {V : List (Option α)} {N : List Bool} {i : Nat},
      JsonLinesDecodeColumns tupdesc attnumlist obj values nulls =
        Except.ok (V, N) →
      (∀ b ∈ attnumlist, b - 1 ≠ i) →
      V[i]? = values[i]? ∧ N[i]? = nulls[i]? := by
  intro attnumlist
  induction attnumlist with
  | nil =>
    intro values nulls V N i h _
    simp only [JsonLinesDecodeColumns, Except.ok.injEq, Prod.mk.injEq] at h
    rw [← h.1, ← h.2]
    exact ⟨rfl, rfl⟩
  | cons a rest ih =>
    intro values nulls V N i h hnot
    have hai : a - 1 ≠ i := hnot a (List.mem_cons_self ..)
    have hrest : ∀ b ∈ rest, b - 1 ≠ i :=
      fun b hb => hnot b (List.mem_cons_of_mem _ hb)
    cases hk : getKeyJsonValue obj (tupdesc.getD (a - 1) ([], fun _ => none)).1 with
    | none =>
      simp only [JsonLinesDecodeColumns, hk] at h
      have := ih h hrest
      rwa [List.getElem?_set_ne hai] at this
    | some v =>
      simp only [JsonLinesDecodeColumns, hk] at h
      by_cases hv : v = JsonbValue.jbvNull
      · rw [if_pos hv] at h
        have := ih h hrest
        rwa [List.getElem?_set_ne hai] at this
      · rw [if_neg hv] at h
        cases hc : (tupdesc.getD (a - 1) ([], fun _ => none)).2
            (GetJsonbValueAsCString v) with
        | none =>
          simp only [hc] at h
          exact Except.noConfusion h
        | some d =>
          simp only [hc] at h
          have := ih h hrest
          rwa [List.getElem?_set_ne hai, List.getElem?_set_ne hai] at this

/-- The final value of a processed attribute's slots is decided by the
key lookup for that attribute's column name alone: an absent key or a
JSON null sets the null flag and leaves the value slot untouched; a
non-null value whose conversion succeeds stores the converted datum and
clears the null flag.  In particular nothing of the previous contents of
the arrays survives in a cell recorded as null beyond its (masked) value
slot. -/
theorem JsonLinesDecodeColumns_outcome {α : Type}
    {tupdesc : List (List Nat × (List Nat → Option α))} {obj : JsonObject} :
    ∀ {attnumlist : List Nat} {a : Nat} {values : List (Option α)}
      {nulls : List Bool} {V : List (Option α)} {N : List Bool},
      JsonLinesDecodeColumns tupdesc attnumlist obj values nulls =
        Except.ok (V, N) →
      a ∈ attnumlist →
      (∀ b ∈ attnumlist, 1 ≤ b) →
      a - 1 < values.length →
      a - 1 < nulls.length →
      ((getKeyJsonValue obj (tupdesc.getD (a - 1) ([], fun _ => none)).1 = none ∨
        getKeyJsonValue obj (tupdesc.getD (a - 1) ([], fun _ => none)).1 =
          some JsonbValue.jbvNull) →
        N[a - 1]? = some true ∧ V[a - 1]? = values[a - 1]?) ∧
      (∀ v d,
        getKeyJsonValue obj (tupdesc.getD (a - 1) ([], fun _ => none)).1 = some v →
        v ≠ JsonbValue.jbvNull →
        (tupdesc.getD (a - 1) ([], fun _ => none)).2 (GetJsonbValueAsCString v) =
          some d →
        N[a - 1]? = some false ∧ V[a - 1]? = some (some d)) := by
  intro attnumlist
  induction attnumlist with
  | nil =>
    intro a values nulls V N _ ha _ _ _
    exact absurd ha (List.not_mem_nil a)
  | cons b rest ih =>
    intro a values nulls V N h ha hone hlenv hlenn
    have hone' : ∀ x ∈ rest, 1 ≤ x := fun x hx => hone x (List.mem_cons_of_mem _ hx)
    by_cases har : a ∈ rest
    · -- the tail processes the same attribute again and decides the slot
      cases hk : getKeyJsonValue obj (tupdesc.getD (b - 1) ([], fun _ => none)).1 with
      | none =>
        simp only [JsonLinesDecodeColumns, hk] at h
        have hih := ih h har hone' hlenv (by simpa using hlenn)
        refine ⟨fun hnull => ?_, fun v d hv hvn hc => hih.2 v d hv hvn hc⟩
        obtain ⟨h1, h2⟩ := hih.1 hnull
        exact ⟨h1, h2⟩
      | some v0 =>
        simp only [JsonLinesDecodeColumns, hk] at h
        by_cases hv0 : v0 = JsonbValue.jbvNull
        · rw [if_pos hv0] at h
          have hih := ih h har hone' hlenv (by simpa using hlenn)
          exact ⟨fun hnull => hih.1 hnull, fun v d hv hvn hc => hih.2 v d hv hvn hc⟩
        · rw [if_neg hv0] at h
          cases hc0 : (tupdesc.getD (b - 1) ([], fun _ => none)).2
              (GetJsonbValueAsCString v0) with
          | none =>
            simp only [hc0] at h
            exact Except.noConfusion h
          | some d0 =>
            simp only [hc0] at h
            have hih := ih h har hone' (by simpa using hlenv) (by simpa using hlenn)
            constructor
            · intro hnull
              obtain ⟨h1, h2⟩ := hih.1 hnull
              refine ⟨h1, ?_⟩
              rw [h2]
              by_cases hba : b - 1 = a - 1
              · -- same slot means the same attribute and the same lookup,
                -- contradicting the null case
                exfalso
                have hb1 : b = a := by
                  have := hone b (List.mem_cons_self ..)
                  have := hone a ha
                  omega
                rw [hb1] at hk
                rcases hnull with hn | hn
                · rw [hk] at hn; exact Option.noConfusion hn
                · rw [hk] at hn
                  exact hv0 ((Option.some.injEq _ _).mp hn)
              · rw [List.getElem?_set_ne hba]
            · intro v d hv hvn hc
              exact hih.2 v d hv hvn hc
    · -- the head is the only occurrence of this attribute
      have hab : a = b := by
        rcases List.mem_cons.mp ha with h' | h'
        · exact h'
        · exact absurd h' har
      subst hab
      have hstable : ∀ x ∈ rest, x - 1 ≠ a - 1 := by
        intro x hx hxa
        have hx1 : 1 ≤ x := hone' x hx
        have ha1 : 1 ≤ a := hone a (List.mem_cons_self ..)
        have : x = a := by omega
        rw [this] at hx
        exact har hx
      cases hk : getKeyJsonValue obj (tupdesc.getD (a - 1) ([], fun _ => none)).1 with
      | none =>
        simp only [JsonLinesDecodeColumns, hk] at h
        obtain ⟨h1, h2⟩ := JsonLinesDecodeColumns_stable h hstable
        constructor
        · intro _
          rw [h2, h1, List.getElem?_set_self hlenn]
          exact ⟨rfl, rfl⟩
        · intro v d hv _ _
          exact Option.noConfusion hv
      | some v0 =>
        simp only [JsonLinesDecodeColumns, hk] at h
        by_cases hv0 : v0 = JsonbValue.jbvNull
        · rw [if_pos hv0] at h
          obtain ⟨h1, h2⟩ := JsonLinesDecodeColumns_stable h hstable
          constructor
          · intro _
            rw [h2, h1, List.getElem?_set_self hlenn]
            exact ⟨rfl, rfl⟩
          · intro v d hv hvn _
            have : v0 = v := (Option.some.injEq _ _).mp hv
            rw [this] at hv0
            exact absurd hv0 hvn
        · rw [if_neg hv0] at h
          cases hc0 : (tupdesc.getD (a - 1) ([], fun _ => none)).2
              (GetJsonbValueAsCString v0) with
          | none =>
            simp only [hc0] at h
            exact Except.noConfusion h
          | some d0 =>
            simp only [hc0] at h
            obtain ⟨h1, h2⟩ := JsonLinesDecodeColumns_stable h hstable
            constructor
            · intro hnull
              rcases hnull with hn | hn
              · exact Option.noConfusion hn
              · exact absurd ((Option.some.injEq _ _).mp hn) hv0
            · intro v d hv hvn hc
              have hvv : v0 = v := (Option.some.injEq _ _).mp hv
              rw [← hvv] at hc
              rw [hc0] at hc
              have hdd : d0 = d := (Option.some.injEq _ _).mp hc
              subst hdd
              rw [h2, h1, List.getElem?_set_self hlenn, List.getElem?_set_self hlenv]
              exact ⟨rfl, rfl⟩

/-- If no processed attribute's conversion fails, the column decoder
succeeds. -/
theorem JsonLinesDecodeColumns_total {α : Type}
    {tupdesc : List (List Nat × (List Nat → Option α))} {obj : JsonObject} :
    ∀ {attnumlist : List Nat} (values : List (Option α)) (nulls : List Bool),
      (∀ a ∈ attnumlist, ∀ v,
        getKeyJsonValue obj (tupdesc.getD (a - 1) ([], fun _ => none)).1 = some v →
        v ≠ JsonbValue.jbvNull →
        (tupdesc.getD (a - 1) ([], fun _ => none)).2 (GetJsonbValueAsCString v) ≠
          none) →
      ∃ V N, JsonLinesDecodeColumns tupdesc attnumlist obj values nulls =
        Except.ok (V, N) := by
  intro attnumlist
  induction attnumlist with
  | nil =>
    intro values nulls _
    exact ⟨values, nulls, rfl⟩
  | cons a rest ih =>
    intro values nulls hok
    have hok' := fun x hx => hok x (List.mem_cons_of_mem _ hx)
    cases hk : getKeyJsonValue obj (tupdesc.getD (a - 1) ([], fun _ => none)).1 with
    | none =>
      simp only [JsonLinesDecodeColumns, hk]
      exact ih _ _ hok'
    | some v =>
      simp only [JsonLinesDecodeColumns, hk]
      by_cases hv : v = JsonbValue.jbvNull
      · rw [if_pos hv]
        exact ih _ _ hok'
      · rw [if_neg hv]
        cases hc : (tupdesc.getD (a - 1) ([], fun _ => none)).2
            (GetJsonbValueAsCString v) with
        | none =>
          exact absurd hc (hok a (List.mem_cons_self ..) v hk hv)
        | some d =>
          exact ih _ _ hok'

/-! ## Round-trip lemmas for the rendered value forms -/

theorem decimalDigitsRev_eq_digits :
    ∀ (fuel n : Nat), n ≤ fuel → decimalDigitsRev fuel n = Nat.digits 10 n := by
  intro fuel
  induction fuel with
  | zero =>
    intro n hn
    have : n = 0 := Nat.le_zero.mp hn
    subst this
    simp [decimalDigitsRev]
  | succ fuel ih =>
    intro n hn
    cases n with
    | zero => simp [decimalDigitsRev]
    | succ k =>
      have hpos : 0 < k + 1 := Nat.succ_pos k
      have hdiv : (k + 1) / 10 ≤ fuel := by
        have := Nat.div_lt_self hpos (by omega : 1 < 10)
        omega
      rw [show decimalDigitsRev (fuel + 1) (k + 1) =
        (k + 1) % 10 :: decimalDigitsRev fuel ((k + 1) / 10) from rfl,
        ih _ hdiv, Nat.digits_def' (by omega : 1 < 10) hpos]

theorem natToDecimalBytes_all_digits (n : Nat) :
    ∀ b ∈ natToDecimalBytes n, isDigitByte b = true := by
  intro b hb
  unfold natToDecimalBytes at hb
  by_cases hn : n = 0
  · rw [if_pos hn] at hb
    simp at hb
    subst hb
    rfl
  · rw [if_neg hn, decimalDigitsRev_eq_digits n n (Nat.le_refl n)] at hb
    rw [List.mem_reverse, List.mem_map] at hb
    obtain ⟨d, hd, rfl⟩ := hb
    have hlt : d < 10 := Nat.digits_lt_base (by omega) hd
    simp [isDigitByte]
    omega

theorem natToDecimalBytes_ne_nil (n : Nat) : natToDecimalBytes n ≠ [] := by
  unfold natToDecimalBytes
  by_cases hn : n = 0
  · rw [if_pos hn]; simp
  · rw [if_neg hn]
    simp only [ne_eq, List.reverse_eq_nil_iff, List.map_eq_nil_iff]
    rw [decimalDigitsRev_eq_digits n n (Nat.le_refl n)]
    exact Nat.digits_ne_nil_iff_ne_zero.mpr hn

theorem parseDecimalNat_natToDecimalBytes (n : Nat) :
    parseDecimalNat (natToDecimalBytes n) = some n := by
  unfold parseDecimalNat
  rw [if_pos ⟨natToDecimalBytes_ne_nil n,
    List.all_eq_true.mpr (natToDecimalBytes_all_digits n)⟩]
  congr 1
  unfold natToDecimalBytes
  by_cases hn : n = 0
  · rw [if_pos hn]
    subst hn
    simp [Nat.ofDigits]
  · rw [if_neg hn, decimalDigitsRev_eq_digits n n (Nat.le_refl n)]
    rw [List.map_reverse, List.reverse_reverse, List.map_map]
    have hmap : ((fun b => b - 48) ∘ (· + 48)) = (id : Nat → Nat) := by
      funext d
      simp
    rw [hmap, List.map_id]
    exact Nat.ofDigits_digits 10 n

theorem natToDecimalBytes_head_ge (n : Nat) :
    ∀ b, (natToDecimalBytes n).head? = some b → 48 ≤ b := by
  intro b hb
  have hmem : b ∈ natToDecimalBytes n := by
    cases hl : natToDecimalBytes n with
    | nil => rw [hl] at hb; exact Option.noConfusion hb
    | cons x xs =>
      rw [hl] at hb
      have : x = b := (Option.some.injEq _ _).mp hb
      rw [← this]
      exact List.mem_cons_self ..
  have := natToDecimalBytes_all_digits n b hmem
  simp [isDigitByte] at this
  exact this.1

theorem parseDecimalInt_numeric_out (n : Int) :
    parseDecimalInt (numeric_out n) = some n := by
  cases n with
  | ofNat m =>
    show parseDecimalInt (natToDecimalBytes m) = some (Int.ofNat m)
    unfold parseDecimalInt
    have hh : ¬ (natToDecimalBytes m).head? = some 45 := by
      intro hc
      have := natToDecimalBytes_head_ge m 45 hc
      omega
    rw [if_neg hh, parseDecimalNat_natToDecimalBytes]
    rfl
  | negSucc m =>
    show parseDecimalInt (45 :: natToDecimalBytes (m + 1)) = some (Int.negSucc m)
    unfold parseDecimalInt
    have hc : (45 :: natToDecimalBytes (m + 1)).head? = some 45 := rfl
    rw [if_pos hc]
    show (parseDecimalNat (natToDecimalBytes (m + 1))).map _ = _
    rw [parseDecimalNat_natToDecimalBytes]
    simp [Int.negSucc_eq]

/-- The per-cell round trip: rendering the JSON form of a typed value
with `GetJsonbValueAsCString` and converting it back through the
column's input function recovers the value. -/
theorem inputFunction_roundtrip (t : ColType) (v : CellValue)
    (h : cellHasType t v = true) :
    inputFunction t (GetJsonbValueAsCString (datumToJsonb v)) = some v := by
  cases t <;> cases v <;> simp [cellHasType] at h ⊢ <;> try rfl
  case number.numberVal n =>
    show (parseDecimalInt (numeric_out n)).map CellValue.numberVal = _
    rw [parseDecimalInt_numeric_out]
    rfl
  case boolean.boolVal b =>
    cases b
    · show inputFunction ColType.boolean falseBytes = _
      rfl
    · show inputFunction ColType.boolean trueBytes = _
      rfl

/-! ## Lemmas about the newline scan -/

theorem strchrNewline_eq_none {t : List Nat} (h : ∀ b ∈ t, b ≠ 10 ∧ b ≠ 0) :
    strchrNewline t = none := by
  induction t with
  | nil => rfl
  | cons b bs ih =>
    have hb := h b (List.mem_cons_self ..)
    simp [strchrNewline, hb.1, hb.2,
      ih (fun x hx => h x (List.mem_cons_of_mem _ hx))]

theorem strchrNewline_append_newline {pre : List Nat} (xs : List Nat)
    (h : ∀ b ∈ pre, b ≠ 10 ∧ b ≠ 0) :
    strchrNewline (pre ++ 10 :: xs) = some pre.length := by
  induction pre with
  | nil => simp [strchrNewline]
  | cons b bs ih =>
    have hb := h b (List.mem_cons_self ..)
    simp [strchrNewline, hb.1, hb.2,
      ih (fun x hx => h x (List.mem_cons_of_mem _ hx))]

theorem strchrNewline_some {t : List Nat} {j : Nat}
    (h : strchrNewline t = some j) : j < t.length ∧ 10 ∈ t := by
  induction t generalizing j with
  | nil => simp [strchrNewline] at h
  | cons b bs ih =>
    by_cases hb0 : b = 0
    · simp [strchrNewline, hb0] at h
    · by_cases hb10 : b = 10
      · subst hb10
        simp [strchrNewline] at h
        subst h
        simp
      · simp [strchrNewline, hb0, hb10] at h
        obtain ⟨j', hj', rfl⟩ := h
        have := ih hj'
        refine ⟨by simpa using Nat.succ_lt_succ this.1, List.mem_cons_of_mem _ this.2⟩

/-! ## Lemmas about the line-reading loop -/

/-- When the pending stream holds a newline whose preceding bytes are
free of newline and NUL bytes, the loop stops with exactly those bytes
appended to the line buffer and leaves the bytes after the newline
pending. -/
theorem JsonLineReadLineLoop_spec :
    ∀ (chunks : List (List Nat)) (lb buf : List Nat) (idx : Nat) (pre post : List Nat),
      (∀ c ∈ chunks, c ≠ []) →
      buf.drop idx ++ chunks.flatten = pre ++ 10 :: post →
      (∀ b ∈ pre, b ≠ 10 ∧ b ≠ 0) →
      (JsonLineReadLineLoop lb buf idx chunks).eof = false ∧
        (JsonLineReadLineLoop lb buf idx chunks).line_buf = lb ++ pre ∧
        (JsonLineReadLineLoop lb buf idx chunks).input_buf.drop
            (JsonLineReadLineLoop lb buf idx chunks).input_buf_index ++
          (JsonLineReadLineLoop lb buf idx chunks).chunks.flatten = post := by
  intro chunks
  induction chunks with
  | nil =>
    intro lb buf idx pre post _ hstream hclean
    rw [List.flatten_nil, List.append_nil] at hstream
    have hfind : strchrNewline (buf.drop idx) = some pre.length := by
      rw [hstream]; exact strchrNewline_append_newline _ hclean
    simp only [JsonLineReadLineLoop, hfind]
    refine ⟨trivial, ?_, ?_⟩
    · rw [hstream, List.take_left' rfl]
    · have : buf.drop (idx + pre.length + 1) = (buf.drop idx).drop (pre.length + 1) := by
        rw [List.drop_drop, Nat.add_assoc]
      rw [List.flatten_nil, List.append_nil, this, hstream,
        show pre ++ 10 :: post = (pre ++ [10]) ++ post by simp,
        List.drop_left' (by simp)]
  | cons c cs ih =>
    intro lb buf idx pre post hne hstream hclean
    cases hfind : strchrNewline (buf.drop idx) with
    | some j =>
      by_cases hlt : pre.length < (buf.drop idx).length
      · -- the newline is inside the current buffer
        have htake : (buf.drop idx).take pre.length = pre := by
          have h1 := congrArg (List.take pre.length) hstream
          rw [List.take_append_eq_append_take,
            Nat.sub_eq_zero_of_le hlt.le, List.take_zero, List.append_nil] at h1
          rw [h1, List.take_left' rfl]
        have hget : (buf.drop idx)[pre.length]? = some 10 := by
          have h1 := congrArg (fun l => l[pre.length]?) hstream
          simp only [List.getElem?_append_left hlt] at h1
          rw [h1, List.getElem?_append_right (Nat.le_refl _)]
          simp
        have hsplit : buf.drop idx =
            pre ++ 10 :: (buf.drop idx).drop (pre.length + 1) := by
          conv_lhs => rw [← List.take_append_drop pre.length (buf.drop idx)]
          rw [htake, List.drop_eq_getElem_cons hlt]
          have : (buf.drop idx)[pre.length] = 10 := by
            have := List.getElem?_eq_getElem hlt
            rw [this] at hget
            exact (Option.some.injEq _ _).mp hget
          rw [this]
        have hj : j = pre.length := by
          have h2 : strchrNewline (buf.drop idx) = some pre.length := by
            rw [hsplit]; exact strchrNewline_append_newline _ hclean
          rw [hfind] at h2
          exact (Option.some.injEq _ _).mp h2
      -- compute the found branch
        subst hj
        simp only [JsonLineReadLineLoop, hfind]
        refine ⟨trivial, by rw [htake], ?_⟩
        have hdd : buf.drop (idx + pre.length + 1) =
            (buf.drop idx).drop (pre.length + 1) := by
          rw [List.drop_drop, Nat.add_assoc]
        rw [hdd]
        have hrest : (buf.drop idx).drop (pre.length + 1) ++ (c :: cs).flatten = post := by
          rw [hsplit] at hstream
          have h3 : pre ++ 10 :: ((buf.drop idx).drop (pre.length + 1) ++
              (c :: cs).flatten) = pre ++ 10 :: post := by
            simpa using hstream
          have h4 := List.append_cancel_left h3
          exact (List.cons.injEq _ _ _ _).mp h4 |>.2
        exact hrest
      · -- impossible: the buffer is a clean prefix of pre, so strchr finds nothing
        exfalso
        push_neg at hlt
        have htpre : buf.drop idx = pre.take (buf.drop idx).length := by
          have h1 := congrArg (List.take (buf.drop idx).length) hstream
          rw [List.take_left' rfl, List.take_append_eq_append_take,
            Nat.sub_eq_zero_of_le hlt, List.take_zero, List.append_nil] at h1
          exact h1
        have hcleant : ∀ b ∈ buf.drop idx, b ≠ 10 ∧ b ≠ 0 := by
          intro b hb
          rw [htpre] at hb
          exact hclean b (List.mem_of_mem_take hb)
        rw [strchrNewline_eq_none hcleant] at hfind
        exact Option.noConfusion hfind
    | none =>
      have hlt : ¬ pre.length < (buf.drop idx).length := by
        intro hlt
        -- as above, the newline would be inside the buffer, so strchr finds it
        have htake : (buf.drop idx).take pre.length = pre := by
          have h1 := congrArg (List.take pre.length) hstream
          rw [List.take_append_eq_append_take,
            Nat.sub_eq_zero_of_le hlt.le, List.take_zero, List.append_nil] at h1
          rw [h1, List.take_left' rfl]
        have hget : (buf.drop idx)[pre.length]? = some 10 := by
          have h1 := congrArg (fun l => l[pre.length]?) hstream
          simp only [List.getElem?_append_left hlt] at h1
          rw [h1, List.getElem?_append_right (Nat.le_refl _)]
          simp
        have hsplit : buf.drop idx =
            pre ++ 10 :: (buf.drop idx).drop (pre.length + 1) := by
          conv_lhs => rw [← List.take_append_drop pre.length (buf.drop idx)]
          rw [htake, List.drop_eq_getElem_cons hlt]
          have : (buf.drop idx)[pre.length] = 10 := by
            have := List.getElem?_eq_getElem hlt
            rw [this] at hget
            exact (Option.some.injEq _ _).mp hget
          rw [this]
        have h2 : strchrNewline (buf.drop idx) = some pre.length := by
          rw [hsplit]; exact strchrNewline_append_newline _ hclean
        rw [hfind] at h2
        exact Option.noConfusion h2
      push_neg at hlt
      have htpre : buf.drop idx = pre.take (buf.drop idx).length := by
        have h1 := congrArg (List.take (buf.drop idx).length) hstream
        rw [List.take_left' rfl, List.take_append_eq_append_take,
          Nat.sub_eq_zero_of_le hlt, List.take_zero, List.append_nil] at h1
        exact h1
      have hpre : pre = buf.drop idx ++ pre.drop (buf.drop idx).length := by
        conv_lhs => rw [← List.take_append_drop (buf.drop idx).length pre]
        rw [← htpre]
      have hcne : c ≠ [] := hne c (List.mem_cons_self ..)
      have hclen : ¬ c.length = 0 := by
        intro h; exact hcne (List.eq_nil_of_length_eq_zero h)
      simp only [JsonLineReadLineLoop, hfind, if_neg hclen]
      have hstream' : c.drop 0 ++ cs.flatten =
          pre.drop (buf.drop idx).length ++ 10 :: post := by
        rw [List.drop_zero]
        have h5 : buf.drop idx ++ (c ++ cs.flatten) =
            buf.drop idx ++ (pre.drop (buf.drop idx).length ++ 10 :: post) := by
          rw [← List.append_assoc]
          rw [show buf.drop idx ++ c ++ cs.flatten =
            buf.drop idx ++ (c :: cs).flatten by simp]
          rw [hstream]
          conv_lhs => rw [hpre]
          simp
        exact List.append_cancel_left h5
      have hcleand : ∀ b ∈ pre.drop (buf.drop idx).length, b ≠ 10 ∧ b ≠ 0 :=
        fun b hb => hclean b (List.mem_of_mem_drop hb)
      obtain ⟨he, hl, hr⟩ := ih (lb ++ buf.drop idx) c 0
        (pre.drop (buf.drop idx).length) post
        (fun x hx => hne x (List.mem_cons_of_mem _ hx)) hstream' hcleand
      refine ⟨he, ?_, hr⟩
      rw [hl, List.append_assoc, ← hpre]

/-- When the whole pending stream holds no newline byte, the loop
reports end of input (after appending everything to the line buffer)
with the source drained and the input buffer empty. -/
theorem JsonLineReadLineLoop_no_newline :
    ∀ (chunks : List (List Nat)) (lb buf : List Nat) (idx : Nat),
      (∀ c ∈ chunks, c ≠ []) →
      10 ∉ buf.drop idx ++ chunks.flatten →
      JsonLineReadLineLoop lb buf idx chunks =
        ⟨true, lb ++ (buf.drop idx ++ chunks.flatten), [], [], 0⟩ := by
  intro chunks
  induction chunks with
  | nil =>
    intro lb buf idx _ h10
    cases hfind : strchrNewline (buf.drop idx) with
    | some j =>
      exact absurd (List.mem_append_left _ (strchrNewline_some hfind).2) h10
    | none =>
      simp only [JsonLineReadLineLoop, hfind]
      simp
  | cons c cs ih =>
    intro lb buf idx hne h10
    cases hfind : strchrNewline (buf.drop idx) with
    | some j =>
      exact absurd (List.mem_append_left _ (strchrNewline_some hfind).2) h10
    | none =>
      have hcne : c ≠ [] := hne c (List.mem_cons_self ..)
      have hclen : ¬ c.length = 0 := by
        intro h; exact hcne (List.eq_nil_of_length_eq_zero h)
      simp only [JsonLineReadLineLoop, hfind, if_neg hclen]
      have h10' : 10 ∉ c.drop 0 ++ cs.flatten := by
        intro hmem
        apply h10
        rw [List.drop_zero] at hmem
        refine List.mem_append_right _ ?_
        rw [List.flatten_cons]
        rcases List.mem_append.mp hmem with h | h
        · exact List.mem_append_left _ h
        · exact List.mem_append_right _ h
      rw [ih (lb ++ buf.drop idx) c 0 (fun x hx => hne x (List.mem_cons_of_mem _ hx)) h10']
      simp

/-- The loop preserves the Input Buffer invariant
`index ≤ len ≤ capacity` provided every refill chunk fits the buffer
capacity (`CopyFromGetData` is asked for at most `INPUT_BUF_SIZE`
bytes). -/
theorem JsonLineReadLineLoop_invariant :
    ∀ (chunks : List (List Nat)) (lb buf : List Nat) (idx : Nat),
      buf.length ≤ INPUT_BUF_CAPACITY →
      (∀ c ∈ chunks, c.length ≤ INPUT_BUF_CAPACITY) →
      (JsonLineReadLineLoop lb buf idx chunks).input_buf_index ≤
          (JsonLineReadLineLoop lb buf idx chunks).input_buf.length ∧
        (JsonLineReadLineLoop lb buf idx chunks).input_buf.length ≤
          INPUT_BUF_CAPACITY := by
  intro chunks
  induction chunks with
  | nil =>
    intro lb buf idx hcap _
    cases hfind : strchrNewline (buf.drop idx) with
    | some j =>
      have hj := (strchrNewline_some hfind).1
      rw [List.length_drop] at hj
      simp only [JsonLineReadLineLoop, hfind]
      exact ⟨by omega, hcap⟩
    | none =>
      simp only [JsonLineReadLineLoop, hfind]
      exact ⟨Nat.le_refl _, by simp⟩
  | cons c cs ih =>
    intro lb buf idx hcap hchunks
    cases hfind : strchrNewline (buf.drop idx) with
    | some j =>
      have hj := (strchrNewline_some hfind).1
      rw [List.length_drop] at hj
      simp only [JsonLineReadLineLoop, hfind]
      exact ⟨by omega, hcap⟩
    | none =>
      by_cases hclen : c.length = 0
      · simp only [JsonLineReadLineLoop, hfind, if_pos hclen]
        exact ⟨Nat.le_refl _, by simp⟩
      · simp only [JsonLineReadLineLoop, hfind, if_neg hclen]
        exact ih (lb ++ buf.drop idx) c 0
          (hchunks c (List.mem_cons_self ..))
          (fun x hx => hchunks x (List.mem_cons_of_mem _ hx))

/-! ## Lemmas about the encoded row object -/

theorem rowMatchesTypes_spec {tys : List ColType} {row : List (Option CellValue)}
    (h : rowMatchesTypes tys row = true) :
    ∀ (i : Nat) (v : CellValue) (t : ColType),
      row[i]? = some (some v) → tys[i]? = some t →
      cellHasType t v = true := by
  intro i v t hv ht
  by_cases hi : i < tys.length
  · have := List.all_eq_true.mp h i (List.mem_range.mpr hi)
    simp only [hv, ht] at this
    exact this
  · rw [List.getElem?_eq_none (by omega)] at ht
    exact Option.noConfusion ht

/-- Looking up a column's name in the encoded object of a row finds the
JSON form of that column's cell (column names are distinct in a tuple
descriptor). -/
theorem getKeyJsonValue_encode :
    ∀ (colnames : List (List Nat)) (row : List (Option CellValue)) (i : Nat)
      (name : List Nat) (cell : Option CellValue),
      colnames.Nodup →
      colnames[i]? = some name →
      row[i]? = some cell →
      getKeyJsonValue (JsonLinesCopyToOneRowObject colnames row) name =
        some (cellJson cell) := by
  intro colnames
  induction colnames with
  | nil =>
    intro row i name cell _ hname _
    simp at hname
  | cons n0 ns ih =>
    intro row i name cell hnodup hname hcell
    cases row with
    | nil => simp at hcell
    | cons c0 cs =>
      cases i with
      | zero =>
        simp only [List.getElem?_cons_zero, Option.some.injEq] at hname hcell
        subst hname
        subst hcell
        simp [JsonLinesCopyToOneRowObject, getKeyJsonValue]
      | succ i =>
        simp only [List.getElem?_cons_succ] at hname hcell
        have hne : ¬ n0 = name := by
          intro he
          have hmem : name ∈ ns := List.getElem?_mem hname
          rw [← he] at hmem
          exact (List.nodup_cons.mp hnodup).1 hmem
        simp only [JsonLinesCopyToOneRowObject, List.zipWith_cons_cons,
          getKeyJsonValue, if_neg hne]
        exact ih cs i name cell (List.nodup_cons.mp hnodup).2 hname hcell

theorem datumToJsonb_ne_null (v : CellValue) :
    datumToJsonb v ≠ JsonbValue.jbvNull := by
  cases v <;> simp [datumToJsonb]

/-- Decoding the encoded object of one row, processing every column in
schema order (1-based attribute numbers), succeeds and recovers exactly
the row's values and null flags, whatever the previous contents of the
reused `values`/`nulls` arrays were. -/
theorem decode_encode_row (cols : List (List Nat × ColType))
    (row : List (Option CellValue)) (values : List (Option CellValue))
    (nulls : List Bool)
    (hnodup : (cols.map Prod.fst).Nodup)
    (hrow : row.length = cols.length)
    (hval : values.length = cols.length)
    (hnull : nulls.length = cols.length)
    (htype : ∀ (i : Nat) (v : CellValue) (t : ColType),
      row[i]? = some (some v) →
      (cols.map Prod.snd)[i]? = some t → cellHasType t v = true) :
    ∃ V N,
      JsonLinesDecodeColumns (tupdescOf cols) (List.range' 1 cols.length)
          (JsonLinesCopyToOneRowObject (cols.map Prod.fst) row) values nulls =
        Except.ok (V, N) ∧
      V.length = cols.length ∧ N.length = cols.length ∧
      decodedCells V N = row := by
  set obj := JsonLinesCopyToOneRowObject (cols.map Prod.fst) row with hobj
  have htup : ∀ (i : Nat) (hi : i < cols.length),
      (tupdescOf cols).getD i ([], fun _ => none) =
        ((cols[i]).1, inputFunction (cols[i]).2) := by
    intro i hi
    rw [List.getD_eq_getElem?_getD]
    unfold tupdescOf
    rw [List.getElem?_map, List.getElem?_eq_getElem hi]
    rfl
  have hlook : ∀ (i : Nat) (hi : i < cols.length) (cell : Option CellValue),
      row[i]? = some cell →
      getKeyJsonValue obj (cols[i]).1 = some (cellJson cell) := by
    intro i hi cell hcell
    apply getKeyJsonValue_encode (cols.map Prod.fst) row i (cols[i]).1 cell hnodup
    · rw [List.getElem?_map, List.getElem?_eq_getElem hi]
      rfl
    · exact hcell
  have hcellof : ∀ i, i < cols.length → ∃ cell, row[i]? = some cell := by
    intro i hi
    rw [List.getElem?_eq_getElem (show i < row.length by omega)]
    exact ⟨_, rfl⟩
  have hone : ∀ b ∈ List.range' 1 cols.length, 1 ≤ b := by
    intro b hb
    obtain ⟨j, hj, hbj⟩ := List.mem_range'.mp hb
    omega
  have hok : ∀ a ∈ List.range' 1 cols.length, ∀ v,
      getKeyJsonValue obj ((tupdescOf cols).getD (a - 1) ([], fun _ => none)).1 =
        some v →
      v ≠ JsonbValue.jbvNull →
      ((tupdescOf cols).getD (a - 1) ([], fun _ => none)).2
        (GetJsonbValueAsCString v) ≠ none := by
    intro a ha v hv hvn
    obtain ⟨i, hi, hai⟩ := List.mem_range'.mp ha
    have hi' : a - 1 = i := by omega
    rw [hi', htup i hi] at hv ⊢
    obtain ⟨cell, hcell⟩ := hcellof i hi
    rw [hlook i hi cell hcell] at hv
    have hvv : v = cellJson cell := ((Option.some.injEq _ _).mp hv).symm
    subst hvv
    cases cell with
    | none => exact absurd rfl hvn
    | some w =>
      have ht : cellHasType (cols[i]).2 w = true := by
        apply htype i w
        · exact hcell
        · rw [List.getElem?_map, List.getElem?_eq_getElem hi]
          rfl
      show inputFunction (cols[i]).2
        (GetJsonbValueAsCString (cellJson (some w))) ≠ none
      rw [show cellJson (some w) = datumToJsonb w from rfl,
        inputFunction_roundtrip _ _ ht]
      simp
  obtain ⟨V, N, hVN⟩ := JsonLinesDecodeColumns_total values nulls hok
  obtain ⟨hlV, hlN⟩ := JsonLinesDecodeColumns_length hVN
  have hchar : ∀ i, i < cols.length →
      (row[i]? = some none → N[i]? = some true ∧ V[i]? = values[i]?) ∧
      (∀ w, row[i]? = some (some w) →
        N[i]? = some false ∧ V[i]? = some (some w)) := by
    intro i hi
    have hmem : i + 1 ∈ List.range' 1 cols.length := by
      rw [List.mem_range']
      exact ⟨i, hi, by omega⟩
    have hout := JsonLinesDecodeColumns_outcome hVN hmem hone
      (by omega) (by omega)
    simp only [Nat.add_sub_cancel] at hout
    rw [htup i hi] at hout
    constructor
    · intro hcell
      exact hout.1 (Or.inr (hlook i hi none hcell))
    · intro w hcell
      have ht : cellHasType (cols[i]).2 w = true := by
        apply htype i w
        · exact hcell
        · rw [List.getElem?_map, List.getElem?_eq_getElem hi]
          rfl
      exact hout.2 (datumToJsonb w) w (hlook i hi (some w) hcell)
        (datumToJsonb_ne_null w) (inputFunction_roundtrip _ _ ht)
  refine ⟨V, N, hVN, by omega, by omega, ?_⟩
  apply List.ext_getElem?
  intro i
  unfold decodedCells
  rw [List.getElem?_zipWith]
  by_cases hi : i < cols.length
  · obtain ⟨cell, hcell⟩ := hcellof i hi
    cases cell with
    | none =>
      obtain ⟨h1, h2⟩ := (hchar i hi).1 hcell
      obtain ⟨v0, hv0⟩ : ∃ v0, values[i]? = some v0 := by
        rw [List.getElem?_eq_getElem (show i < values.length by omega)]
        exact ⟨_, rfl⟩
      rw [h1, h2, hv0, hcell]
      rfl
    | some w =>
      obtain ⟨h1, h2⟩ := (hchar i hi).2 w hcell
      rw [h1, h2, hcell]
      rfl
  · push_neg at hi
    rw [List.getElem?_eq_none (show V.length ≤ i by omega),
      List.getElem?_eq_none (show N.length ≤ i by omega),
      List.getElem?_eq_none (show row.length ≤ i by omega)]

/-! ## Lemmas about strrchr and suffix detection -/

theorem strrchrSuffix_eq_none {s : List Nat} {c : Nat} (h : c ∉ s) :
    strrchrSuffix s c = none := by
  induction s with
  | nil => rfl
  | cons b rest ih =>
    have hb : ¬ b = c := by
      intro he
      exact h (by rw [← he]; exact List.mem_cons_self ..)
    simp [strrchrSuffix, ih (fun hm => h (List.mem_cons_of_mem _ hm)), hb]

theorem strrchrSuffix_isSome {s : List Nat} {c : Nat} (h : c ∈ s) :
    ∃ t, strrchrSuffix s c = some t := by
  induction s with
  | nil => exact absurd h (List.not_mem_nil c)
  | cons b rest ih =>
    by_cases hm : c ∈ rest
    · obtain ⟨t, ht⟩ := ih hm
      exact ⟨t, by simp [strrchrSuffix, ht]⟩
    · have hb : b = c := by
        rcases List.mem_cons.mp h with h' | h'
        · exact h'.symm
        · exact absurd h' hm
      refine ⟨b :: rest, ?_⟩
      subst hb
      simp [strrchrSuffix, strrchrSuffix_eq_none hm]

theorem strrchrSuffix_suffix {s : List Nat} {c : Nat} :
    ∀ {t : List Nat}, strrchrSuffix s c = some t → ∃ pre, s = pre ++ t := by
  induction s with
  | nil => intro t h; exact Option.noConfusion h
  | cons b rest ih =>
    intro t h
    cases hr : strrchrSuffix rest c with
    | some u =>
      simp only [strrchrSuffix, hr] at h
      obtain ⟨pre, hpre⟩ := ih hr
      have ht : u = t := (Option.some.injEq _ _).mp h
      subst ht
      exact ⟨b :: pre, by rw [hpre, List.cons_append]⟩
    | none =>
      simp only [strrchrSuffix, hr] at h
      by_cases hb : b = c
      · rw [if_pos hb] at h
        have ht : b :: rest = t := (Option.some.injEq _ _).mp h
        subst ht
        exact ⟨[], rfl⟩
      · rw [if_neg hb] at h
        exact Option.noConfusion h

theorem strrchrSuffix_append_last {ys : List Nat} {c : Nat} (h : c ∉ ys) :
    ∀ xs : List Nat, strrchrSuffix (xs ++ c :: ys) c = some (c :: ys) := by
  intro xs
  induction xs with
  | nil => simp [strrchrSuffix, strrchrSuffix_eq_none h]
  | cons b xs ih => simp [strrchrSuffix, ih]

/-! ## The line reader stopping at an in-buffer newline -/

/-- When the unread portion of the input buffer starts with a clean (no
newline, no NUL) prefix followed by a newline, one `JsonLineReadLine`
call consumes exactly that prefix plus the newline, with no refill. -/
theorem JsonLineReadLine_found (st : FromState) (pre rest : List Nat)
    (hsplit : st.input_buf.drop st.input_buf_index = pre ++ 10 :: rest)
    (hclean : ∀ b ∈ pre, b ≠ 10 ∧ b ≠ 0) :
    JsonLineReadLine st =
      ⟨false, pre, st.chunks, st.input_buf,
        st.input_buf_index + pre.length + 1⟩ := by
  unfold JsonLineReadLine
  have hfind : strchrNewline (st.input_buf.drop st.input_buf_index) =
      some pre.length := by
    rw [hsplit]
    exact strchrNewline_append_newline _ hclean
  cases hc : st.chunks with
  | nil =>
    simp only [JsonLineReadLineLoop, hfind, List.nil_append]
    rw [hsplit, List.take_left' rfl]
  | cons c cs =>
    simp only [JsonLineReadLineLoop, hfind, List.nil_append]
    rw [hsplit, List.take_left' rfl]

/-! ## Claim theorems -/

/-- C3 (amended): for every Line Reader state whose unread portion of
the Input Buffer contains a newline byte with no NUL byte before the
first newline, the line-reading operation appends exactly the unread
bytes strictly before the first newline to the Line Buffer, advances
the consumed offset past that newline, and stops with a complete line
(no end-of-input, no refill, buffer contents untouched); only `\n`
terminates the line.  The no-NUL condition is forced by the `strchr`
scan, which stops at the first NUL byte. -/
theorem jsonline_read_line_newline_in_buffer (st : FromState)
    (pre rest : List Nat)
    (hsplit : st.input_buf.drop st.input_buf_index = pre ++ 10 :: rest)
    (hclean : ∀ b ∈ pre, b ≠ 10 ∧ b ≠ 0) :
    JsonLineReadLine st =
      ⟨false, pre, st.chunks, st.input_buf,
        st.input_buf_index + pre.length + 1⟩ :=
  JsonLineReadLine_found st pre rest hsplit hclean

theorem jsonline_read_line_newline_in_buffer_witness :
    JsonLineReadLine ⟨[[120]], [97, 98, 10, 99], 1⟩ =
      ⟨false, [98], [[120]], [97, 98, 10, 99], 3⟩ :=
  jsonline_read_line_newline_in_buffer ⟨[[120]], [97, 98, 10, 99], 1⟩ [98] [99]
    (by decide) (by decide)

/-- C3 counterexample: the unread portion `[0, 10]` contains a newline,
yet the read does not stop with a complete line at it: the NUL byte
stops the `strchr` scan, so the whole unread portion — newline byte
included — is appended to the line buffer and the read reports end of
input. -/
theorem jsonline_read_line_nul_counterexample :
    (JsonLineReadLine ⟨[], [0, 10], 0⟩).eof = true ∧
    (JsonLineReadLine ⟨[], [0, 10], 0⟩).line_buf = [0, 10] := by decide

/-- C5 (amended): for every logical line free of NUL bytes and every
split of the stream's bytes into (non-empty) refill chunks, the Line
Reader assembles the identical line: the read stops without
end-of-input, the line buffer holds exactly the bytes before the first
newline, and exactly the bytes after that newline remain pending.
Moreover (second conjunct) whenever the scan finds no newline in the
unread portion, the entire unread portion is appended to the Line
Buffer, the Input Buffer is marked fully consumed, and the loop
continues with the next refill chunk. -/
theorem jsonline_read_line_assembles_across_chunks :
    (∀ (line rest : List Nat) (chunks : List (List Nat)),
      (∀ c ∈ chunks, c ≠ []) →
      chunks.flatten = line ++ 10 :: rest →
      (∀ b ∈ line, b ≠ 10 ∧ b ≠ 0) →
      (JsonLineReadLine ⟨chunks, [], 0⟩).eof = false ∧
        (JsonLineReadLine ⟨chunks, [], 0⟩).line_buf = line ∧
        (JsonLineReadLine ⟨chunks, [], 0⟩).input_buf.drop
            (JsonLineReadLine ⟨chunks, [], 0⟩).input_buf_index ++
          (JsonLineReadLine ⟨chunks, [], 0⟩).chunks.flatten = rest) ∧
    (∀ (lb buf : List Nat) (idx : Nat) (c : List Nat) (cs : List (List Nat)),
      strchrNewline (buf.drop idx) = none →
      c.length ≠ 0 →
      JsonLineReadLineLoop lb buf idx (c :: cs) =
        JsonLineReadLineLoop (lb ++ buf.drop idx) c 0 cs) := by
  constructor
  · intro line rest chunks hne hstream hclean
    have h := JsonLineReadLineLoop_spec chunks [] [] 0 line rest hne
      (by simpa using hstream) hclean
    unfold JsonLineReadLine
    simpa using h
  · intro lb buf idx c cs hfind hclen
    simp only [JsonLineReadLineLoop, hfind, if_neg hclen]

theorem jsonline_read_line_assembles_across_chunks_witness :
    (JsonLineReadLine ⟨[[97], [98, 10, 99]], [], 0⟩).eof = false ∧
    (JsonLineReadLine ⟨[[97], [98, 10, 99]], [], 0⟩).line_buf = [97, 98] ∧
    (JsonLineReadLine ⟨[[97], [98, 10, 99]], [], 0⟩).input_buf.drop
        (JsonLineReadLine ⟨[[97], [98, 10, 99]], [], 0⟩).input_buf_index ++
      (JsonLineReadLine ⟨[[97], [98, 10, 99]], [], 0⟩).chunks.flatten = [99] :=
  (jsonline_read_line_assembles_across_chunks).1 [97, 98] [99]
    [[97], [98, 10, 99]] (by decide) (by decide) (by decide)

/-- C5 counterexample: the single logical line `[0]` (a NUL byte),
terminated by a newline and delivered as one refill chunk, is not
assembled: the read reports end of input and the line buffer holds the
newline byte itself rather than the line. -/
theorem jsonline_chunk_nul_counterexample :
    (JsonLineReadLine ⟨[[0, 10]], [], 0⟩).eof = true ∧
    (JsonLineReadLine ⟨[[0, 10]], [], 0⟩).line_buf = [0, 10] := by decide

/-- C4: when the pending bytes of the stream contain no newline at all
(a dangling tail without terminator, or nothing), the line-reading
operation reports end of input after draining everything into the line
buffer, and the one-row operation emits no row and no error: the
accumulated tail bytes are discarded. -/
theorem jsonlines_no_trailing_partial_record {α : Type}
    (parseJsonb : List Nat → Option JsonObject)
    (tupdesc : List (List Nat × (List Nat → Option α))) (attnumlist : List Nat)
    (st : FromState) (values : List (Option α)) (nulls : List Bool)
    (hchunks : ∀ c ∈ st.chunks, c ≠ [])
    (hnonl : 10 ∉ st.input_buf.drop st.input_buf_index ++ st.chunks.flatten) :
    (JsonLineReadLine st).eof = true ∧
    (JsonLineReadLine st).line_buf =
      st.input_buf.drop st.input_buf_index ++ st.chunks.flatten ∧
    JsonLinesCopyFromOneRow parseJsonb tupdesc attnumlist st values nulls =
      Except.ok (none, ⟨[], [], 0⟩) := by
  have h := JsonLineReadLineLoop_no_newline st.chunks [] st.input_buf
    st.input_buf_index hchunks hnonl
  refine ⟨?_, ?_, ?_⟩ <;>
    simp [JsonLineReadLine, JsonLinesCopyFromOneRow, h]

theorem jsonlines_no_trailing_partial_record_witness :
    JsonLinesCopyFromOneRow (fun _ => some ([] : JsonObject))
        ([] : List (List Nat × (List Nat → Option CellValue))) []
        ⟨[[99]], [97, 98], 0⟩ [] [] =
      Except.ok (none, ⟨[], [], 0⟩) :=
  (jsonlines_no_trailing_partial_record (fun _ => some ([] : JsonObject))
    ([] : List (List Nat × (List Nat → Option CellValue))) []
    ⟨[[99]], [97, 98], 0⟩ [] [] (by decide) (by decide)).2.2

/-- C10: when the next pending byte of the stream is a newline (an
empty line), the Line Reader hands the zero-length line on (no
end-of-input, empty line buffer) and the one-row operation feeds it to
the JSON parser; since the empty string is not valid JSON the parse
fails and the whole copy aborts with an error — the blank line is not
silently skipped. -/
theorem jsonlines_empty_line_not_skipped {α : Type}
    (parseJsonb : List Nat → Option JsonObject)
    (tupdesc : List (List Nat × (List Nat → Option α))) (attnumlist : List Nat)
    (st : FromState) (values : List (Option α)) (nulls : List Bool)
    (rest : List Nat)
    (hchunks : ∀ c ∈ st.chunks, c ≠ [])
    (hstream : st.input_buf.drop st.input_buf_index ++ st.chunks.flatten =
      10 :: rest)
    (hparse : parseJsonb [] = none) :
    (JsonLineReadLine st).eof = false ∧
    (JsonLineReadLine st).line_buf = [] ∧
    JsonLinesCopyFromOneRow parseJsonb tupdesc attnumlist st values nulls =
      Except.error [] := by
  obtain ⟨he, hl, _⟩ := JsonLineReadLineLoop_spec st.chunks [] st.input_buf
    st.input_buf_index [] rest hchunks (by simpa using hstream) (by simp)
  rw [List.nil_append] at hl
  refine ⟨he, hl, ?_⟩
  simp only [JsonLinesCopyFromOneRow, JsonLineReadLine] at *
  simp only [he, hl, hparse]
  rfl

theorem jsonlines_empty_line_not_skipped_witness :
    JsonLinesCopyFromOneRow (fun _ => (none : Option JsonObject))
        ([] : List (List Nat × (List Nat → Option CellValue))) []
        ⟨[], [10, 97], 0⟩ [] [] =
      Except.error [] :=
  (jsonlines_empty_line_not_skipped (fun _ => (none : Option JsonObject))
    ([] : List (List Nat × (List Nat → Option CellValue))) []
    ⟨[], [10, 97], 0⟩ [] [] [97] (by decide) (by decide) rfl).2.2

/-! ## Extra keys are invisible to the decoder -/

theorem getKeyJsonValue_ignore (obj1 obj2 : JsonObject) (k : List Nat)
    (w : JsonbValue) (name : List Nat) (hne : name ≠ k) :
    getKeyJsonValue (obj1 ++ (k, w) :: obj2) name =
      getKeyJsonValue (obj1 ++ obj2) name := by
  induction obj1 with
  | nil =>
    simp only [List.nil_append, getKeyJsonValue]
    rw [if_neg (fun he => hne he.symm)]
  | cons p ps ih =>
    obtain ⟨k0, v0⟩ := p
    simp only [List.cons_append, getKeyJsonValue]
    by_cases h0 : k0 = name
    · rw [if_pos h0, if_pos h0]
    · rw [if_neg h0, if_neg h0]
      exact ih

theorem JsonLinesDecodeColumns_ignore_extra {α : Type}
    (tupdesc : List (List Nat × (List Nat → Option α)))
    (obj1 obj2 : JsonObject) (k : List Nat) (w : JsonbValue) :
    ∀ (attnumlist : List Nat) (values : List (Option α)) (nulls : List Bool),
      (∀ b ∈ attnumlist, (tupdesc.getD (b - 1) ([], fun _ => none)).1 ≠ k) →
      JsonLinesDecodeColumns tupdesc attnumlist (obj1 ++ (k, w) :: obj2)
          values nulls =
        JsonLinesDecodeColumns tupdesc attnumlist (obj1 ++ obj2) values nulls := by
  intro attnumlist
  induction attnumlist with
  | nil => intro values nulls _; rfl
  | cons a rest ih =>
    intro values nulls hnk
    have hnk' : ∀ b ∈ rest, (tupdesc.getD (b - 1) ([], fun _ => none)).1 ≠ k :=
      fun b hb => hnk b (List.mem_cons_of_mem _ hb)
    have hlk := getKeyJsonValue_ignore obj1 obj2 k w
      (tupdesc.getD (a - 1) ([], fun _ => none)).1 (hnk a (List.mem_cons_self ..))
    cases hk : getKeyJsonValue (obj1 ++ obj2)
        (tupdesc.getD (a - 1) ([], fun _ => none)).1 with
    | none =>
      have hlk' : getKeyJsonValue (obj1 ++ (k, w) :: obj2)
          (tupdesc.getD (a - 1) ([], fun _ => none)).1 = none := by rw [hlk, hk]
      simp only [JsonLinesDecodeColumns, hlk', hk]
      exact ih _ _ hnk'
    | some v =>
      have hlk' : getKeyJsonValue (obj1 ++ (k, w) :: obj2)
          (tupdesc.getD (a - 1) ([], fun _ => none)).1 = some v := by rw [hlk, hk]
      simp only [JsonLinesDecodeColumns, hlk', hk]
      by_cases hv : v = JsonbValue.jbvNull
      · rw [if_pos hv, if_pos hv]
        exact ih _ _ hnk'
      · rw [if_neg hv, if_neg hv]
        cases hc : (tupdesc.getD (a - 1) ([], fun _ => none)).2
            (GetJsonbValueAsCString v) with
        | none => simp only [hc]
        | some d =>
          simp only [hc]
          exact ih _ _ hnk'

/-- C6: for every decoded line and target column, an absent key or a
JSON null for the column's name records that cell as null (the cell
reads as null regardless of the previous row's contents of the reused
arrays); a non-null value whose conversion succeeds is recorded
non-null with the converted value; and an extra key matching no target
column's name has no effect on the decode at all. -/
theorem jsonlines_decode_null_and_extra_key {α : Type}
    (tupdesc : List (List Nat × (List Nat → Option α))) (attnumlist : List Nat)
    (obj : JsonObject) (values : List (Option α)) (nulls : List Bool)
    (V : List (Option α)) (N : List Bool) (a : Nat)
    (hone : ∀ b ∈ attnumlist, 1 ≤ b)
    (ha : a ∈ attnumlist)
    (hlenv : a - 1 < values.length)
    (hlenn : a - 1 < nulls.length)
    (hok : JsonLinesDecodeColumns tupdesc attnumlist obj values nulls =
      Except.ok (V, N)) :
    ((getKeyJsonValue obj (tupdesc.getD (a - 1) ([], fun _ => none)).1 = none ∨
      getKeyJsonValue obj (tupdesc.getD (a - 1) ([], fun _ => none)).1 =
        some JsonbValue.jbvNull) →
      N[a - 1]? = some true ∧ (decodedCells V N)[a - 1]? = some none) ∧
    (∀ v d,
      getKeyJsonValue obj (tupdesc.getD (a - 1) ([], fun _ => none)).1 = some v →
      v ≠ JsonbValue.jbvNull →
      (tupdesc.getD (a - 1) ([], fun _ => none)).2 (GetJsonbValueAsCString v) =
        some d →
      N[a - 1]? = some false ∧ V[a - 1]? = some (some d)) ∧
    (∀ (obj1 obj2 : JsonObject) (k : List Nat) (w : JsonbValue)
      (values' : List (Option α)) (nulls' : List Bool),
      (∀ b ∈ attnumlist, (tupdesc.getD (b - 1) ([], fun _ => none)).1 ≠ k) →
      JsonLinesDecodeColumns tupdesc attnumlist (obj1 ++ (k, w) :: obj2)
          values' nulls' =
        JsonLinesDecodeColumns tupdesc attnumlist (obj1 ++ obj2)
          values' nulls') := by
  have hout := JsonLinesDecodeColumns_outcome hok ha hone hlenv hlenn
  refine ⟨?_, hout.2, ?_⟩
  · intro hnull
    obtain ⟨h1, h2⟩ := hout.1 hnull
    refine ⟨h1, ?_⟩
    obtain ⟨v0, hv0⟩ : ∃ v0, values[a - 1]? = some v0 := by
      rw [List.getElem?_eq_getElem hlenv]
      exact ⟨_, rfl⟩
    unfold decodedCells
    rw [List.getElem?_zipWith, h1, h2, hv0]
    rfl
  · intro obj1 obj2 k w values' nulls' hnk
    exact JsonLinesDecodeColumns_ignore_extra tupdesc obj1 obj2 k w
      attnumlist values' nulls' hnk

theorem jsonlines_decode_null_and_extra_key_witness :
    ([true] : List Bool)[0]? = some true ∧
    (decodedCells ([some 5] : List (Option Nat)) [true])[0]? = some none := by
  have h := jsonlines_decode_null_and_extra_key
    [([97], fun _ => some (5 : Nat))] [1] [] [some 5] [false] [some 5] [true] 1
    (by decide) (by decide) (by decide) (by decide) rfl
  exact h.1 (Or.inl rfl)

/-- C7: a line that is not valid JSON makes the one-row read operation
raise a fatal error (no row is produced and no skipping occurs); a
column whose rendered text fails the external conversion makes the
column decoder raise a fatal error; and a column-decoder error
propagates out of the one-row operation as that fatal error. -/
theorem jsonlines_decode_fatal_errors {α : Type} :
    (∀ (parseJsonb : List Nat → Option JsonObject)
      (tupdesc : List (List Nat × (List Nat → Option α))) (attnumlist : List Nat)
      (st : FromState) (values : List (Option α)) (nulls : List Bool),
      (JsonLineReadLine st).eof = false →
      parseJsonb (JsonLineReadLine st).line_buf = none →
      JsonLinesCopyFromOneRow parseJsonb tupdesc attnumlist st values nulls =
        Except.error (JsonLineReadLine st).line_buf) ∧
    (∀ (tupdesc : List (List Nat × (List Nat → Option α))) (attnumlist : List Nat)
      (obj : JsonObject) (values : List (Option α)) (nulls : List Bool),
      (∃ a ∈ attnumlist, ∃ v,
        getKeyJsonValue obj (tupdesc.getD (a - 1) ([], fun _ => none)).1 =
          some v ∧
        v ≠ JsonbValue.jbvNull ∧
        (tupdesc.getD (a - 1) ([], fun _ => none)).2 (GetJsonbValueAsCString v) =
          none) →
      ∃ e, JsonLinesDecodeColumns tupdesc attnumlist obj values nulls =
        Except.error e) ∧
    (∀ (parseJsonb : List Nat → Option JsonObject)
      (tupdesc : List (List Nat × (List Nat → Option α))) (attnumlist : List Nat)
      (st : FromState) (values : List (Option α)) (nulls : List Bool)
      (obj : JsonObject) (e : List Nat),
      (JsonLineReadLine st).eof = false →
      parseJsonb (JsonLineReadLine st).line_buf = some obj →
      JsonLinesDecodeColumns tupdesc attnumlist obj values nulls =
        Except.error e →
      JsonLinesCopyFromOneRow parseJsonb tupdesc attnumlist st values nulls =
        Except.error e) := by
  refine ⟨?_, ?_, ?_⟩
  · intro parseJsonb tupdesc attnumlist st values nulls heof hparse
    simp only [JsonLinesCopyFromOneRow, heof, hparse]
    rfl
  · intro tupdesc attnumlist obj
    induction attnumlist with
    | nil =>
      intro values nulls hex
      obtain ⟨b, hb, _⟩ := hex
      exact absurd hb (List.not_mem_nil b)
    | cons a rest ih =>
      intro values nulls hex
      obtain ⟨b, hb, v, hlkb, hvn, hcv⟩ := hex
      cases hk : getKeyJsonValue obj
          (tupdesc.getD (a - 1) ([], fun _ => none)).1 with
      | none =>
        have hbr : b ∈ rest := by
          rcases List.mem_cons.mp hb with rfl | hbr
          · rw [hk] at hlkb
            exact Option.noConfusion hlkb
          · exact hbr
        obtain ⟨e, he⟩ := ih _ _ ⟨b, hbr, v, hlkb, hvn, hcv⟩
        refine ⟨e, ?_⟩
        simp only [JsonLinesDecodeColumns, hk]
        exact he
      | some v0 =>
        by_cases hv0 : v0 = JsonbValue.jbvNull
        · have hbr : b ∈ rest := by
            rcases List.mem_cons.mp hb with rfl | hbr
            · rw [hk] at hlkb
              have : v0 = v := (Option.some.injEq _ _).mp hlkb
              rw [this] at hv0
              exact absurd hv0 hvn
            · exact hbr
          obtain ⟨e, he⟩ := ih _ _ ⟨b, hbr, v, hlkb, hvn, hcv⟩
          refine ⟨e, ?_⟩
          simp only [JsonLinesDecodeColumns, hk, if_pos hv0]
          exact he
        · cases hc0 : (tupdesc.getD (a - 1) ([], fun _ => none)).2
              (GetJsonbValueAsCString v0) with
          | none =>
            refine ⟨(tupdesc.getD (a - 1) ([], fun _ => none)).1, ?_⟩
            simp only [JsonLinesDecodeColumns, hk, if_neg hv0, hc0]
          | some d0 =>
            have hbr : b ∈ rest := by
              rcases List.mem_cons.mp hb with rfl | hbr
              · rw [hk] at hlkb
                have hveq : v0 = v := (Option.some.injEq _ _).mp hlkb
                rw [← hveq] at hcv
                rw [hc0] at hcv
                exact Option.noConfusion hcv
              · exact hbr
            obtain ⟨e, he⟩ := ih _ _ ⟨b, hbr, v, hlkb, hvn, hcv⟩
            refine ⟨e, ?_⟩
            simp only [JsonLinesDecodeColumns, hk, if_neg hv0, hc0]
            exact he
  · intro parseJsonb tupdesc attnumlist st values nulls obj e heof hparse hdec
    simp only [JsonLinesCopyFromOneRow, heof, hparse, hdec]
    rfl

theorem jsonlines_decode_fatal_errors_witness :
    JsonLinesCopyFromOneRow (fun _ => (none : Option JsonObject))
        ([] : List (List Nat × (List Nat → Option CellValue))) []
        ⟨[], [97, 10], 0⟩ [] [] =
      Except.error (JsonLineReadLine ⟨[], [97, 10], 0⟩).line_buf :=
  (jsonlines_decode_fatal_errors).1 (fun _ => (none : Option JsonObject))
    ([] : List (List Nat × (List Nat → Option CellValue))) []
    ⟨[], [97, 10], 0⟩ [] [] (by decide) rfl

/-- C1: for any sequence of rows whose cells are text, integral-number,
boolean or null values matching their columns' types (distinct column
names), encoding each row with the write-path one-row operation
(uncompressed, at the JSON level produced by `row_to_json`) and then
decoding the resulting lines with the read-path one-row operation —
with the `values`/`nulls` arrays reused across rows as the driver does —
reproduces exactly the same values and null flags in the same column
order. -/
theorem jsonlines_encode_decode_roundtrip
    (cols : List (List Nat × ColType)) (rows : List (List (Option CellValue)))
    (values0 : List (Option CellValue)) (nulls0 : List Bool)
    (hnodup : (cols.map Prod.fst).Nodup)
    (hval : values0.length = cols.length)
    (hnull : nulls0.length = cols.length)
    (hlen : ∀ row ∈ rows, row.length = cols.length)
    (htype : ∀ row ∈ rows, rowMatchesTypes (cols.map Prod.snd) row = true) :
    decodeRowsThreaded (tupdescOf cols) (List.range' 1 cols.length)
        (rows.map (JsonLinesCopyToOneRowObject (cols.map Prod.fst)))
        values0 nulls0 =
      Except.ok rows := by
  revert hval hnull hlen htype
  induction rows generalizing values0 nulls0 with
  | nil =>
    intro _ _ _ _
    rfl
  | cons row rows ih =>
    intro hval hnull hlen htype
    obtain ⟨V, N, hVN, hlV, hlN, hcells⟩ :=
      decode_encode_row cols row values0 nulls0 hnodup
        (hlen row (List.mem_cons_self ..)) hval hnull
        (fun i v t hv ht =>
          rowMatchesTypes_spec (htype row (List.mem_cons_self ..)) i v t hv ht)
    simp only [List.map_cons, decodeRowsThreaded, hVN]
    have hrec := ih V N hlV hlN
      (fun r hr => hlen r (List.mem_cons_of_mem _ hr))
      (fun r hr => htype r (List.mem_cons_of_mem _ hr))
    simp only [hrec, hcells]

theorem jsonlines_encode_decode_roundtrip_witness :
    decodeRowsThreaded (tupdescOf [([97], ColType.number), ([98], ColType.text)])
        (List.range' 1 2)
        ([[some (CellValue.numberVal 1), some (CellValue.textVal [120])],
          [some (CellValue.numberVal (-2)), none]].map
          (JsonLinesCopyToOneRowObject [[97], [98]]))
        [none, none] [false, true] =
      Except.ok
        [[some (CellValue.numberVal 1), some (CellValue.textVal [120])],
         [some (CellValue.numberVal (-2)), none]] :=
  jsonlines_encode_decode_roundtrip
    [([97], ColType.number), ([98], ColType.text)]
    [[some (CellValue.numberVal 1), some (CellValue.textVal [120])],
     [some (CellValue.numberVal (-2)), none]]
    [none, none] [false, true]
    (by decide) (by decide) (by decide) (by decide) (by decide)

/-- C8: the Stream Buffer invariant `0 ≤ index ≤ len ≤ capacity` is
preserved for both the Raw Byte Buffer and the Input Buffer by the
read-path operations (`read_gzip` for the gzip pipeline under the zlib
contract that the transform consumes at most the offered input and
produces at most the offered output capacity, and `JsonLineReadLine`
for the uncompressed pipeline); the raw refill leaves the buffer
untouched when bytes are still available and resets the consumed index
to 0 when it refills; and one `read_gzip` step advances the Raw Byte
Buffer's consumed offset by exactly the number of bytes the inflate
transform consumed and installs exactly the produced bytes as the Input
Buffer (index 0, `len` = number produced). -/
theorem jsonlines_stream_buffer_invariants
    (inflateModel : List Nat → Nat → Nat × List Nat) (st : GzipReadState)
    (hinfl : ∀ (inp : List Nat) (cap : Nat),
      (inflateModel inp cap).1 ≤ inp.length ∧
      (inflateModel inp cap).2.length ≤ cap)
    (hraw : bufInvariant st.raw_buf st.raw_buf_index RAW_BUF_CAPACITY)
    (hchunks : ∀ c ∈ st.chunks, c.length ≤ RAW_BUF_CAPACITY) :
    (bufInvariant (read_gzip inflateModel st).raw_buf
        (read_gzip inflateModel st).raw_buf_index RAW_BUF_CAPACITY ∧
      bufInvariant (read_gzip inflateModel st).input_buf
        (read_gzip inflateModel st).input_buf_index INPUT_BUF_CAPACITY) ∧
    (st.raw_buf_index < st.raw_buf.length → refill_raw st = st) ∧
    (st.raw_buf.length ≤ st.raw_buf_index →
      (refill_raw st).raw_buf_index = 0) ∧
    ((read_gzip inflateModel st).raw_buf_index =
        (refill_raw st).raw_buf_index +
          (inflateModel
            ((refill_raw st).raw_buf.drop (refill_raw st).raw_buf_index)
            INPUT_BUF_CAPACITY).1 ∧
      (read_gzip inflateModel st).input_buf =
        (inflateModel
          ((refill_raw st).raw_buf.drop (refill_raw st).raw_buf_index)
          INPUT_BUF_CAPACITY).2 ∧
      (read_gzip inflateModel st).input_buf_index = 0) ∧
    (∀ ust : FromState,
      bufInvariant ust.input_buf ust.input_buf_index INPUT_BUF_CAPACITY →
      (∀ c ∈ ust.chunks, c.length ≤ INPUT_BUF_CAPACITY) →
      bufInvariant (JsonLineReadLine ust).input_buf
        (JsonLineReadLine ust).input_buf_index INPUT_BUF_CAPACITY) := by
  have hst1 : bufInvariant (refill_raw st).raw_buf (refill_raw st).raw_buf_index
      RAW_BUF_CAPACITY := by
    unfold refill_raw
    split
    · cases hc : st.chunks with
      | nil => exact ⟨Nat.le_refl 0, Nat.zero_le _⟩
      | cons c cs =>
        exact ⟨Nat.zero_le _, hchunks c (by rw [hc]; exact List.mem_cons_self ..)⟩
    · exact hraw
  have hcons := (hinfl ((refill_raw st).raw_buf.drop (refill_raw st).raw_buf_index)
    INPUT_BUF_CAPACITY).1
  have hprod := (hinfl ((refill_raw st).raw_buf.drop (refill_raw st).raw_buf_index)
    INPUT_BUF_CAPACITY).2
  rw [List.length_drop] at hcons
  refine ⟨⟨⟨?_, ?_⟩, ⟨?_, ?_⟩⟩, ?_, ?_, ⟨rfl, rfl, rfl⟩, ?_⟩
  · show (refill_raw st).raw_buf_index + _ ≤ (refill_raw st).raw_buf.length
    have h1 := hst1.1
    omega
  · exact hst1.2
  · exact Nat.zero_le _
  · exact hprod
  · intro h
    unfold refill_raw
    rw [if_neg (by omega)]
  · intro h
    show (refill_raw st).raw_buf_index = 0
    unfold refill_raw
    rw [if_pos (by omega)]
    cases st.chunks
    · rfl
    · rfl
  · intro ust hinv hch
    exact JsonLineReadLineLoop_invariant ust.chunks [] ust.input_buf
      ust.input_buf_index hinv.2 hch

theorem jsonlines_stream_buffer_invariants_witness :
    bufInvariant
      (read_gzip (fun inp cap => (min inp.length cap, inp.take cap))
        ⟨[[1, 2]], [], 0, [], 0⟩).raw_buf
      (read_gzip (fun inp cap => (min inp.length cap, inp.take cap))
        ⟨[[1, 2]], [], 0, [], 0⟩).raw_buf_index
      RAW_BUF_CAPACITY :=
  (jsonlines_stream_buffer_invariants
    (fun inp cap => (min inp.length cap, inp.take cap))
    ⟨[[1, 2]], [], 0, [], 0⟩
    (fun inp cap => ⟨Nat.min_le_left _ _, List.length_take_le _ _⟩)
    ⟨Nat.le_refl 0, Nat.zero_le _⟩
    (by intro c hc; fin_cases hc; decide)).1.1

/-- C9: for every compressed write stream (one `JsonLinesCopyToOneRow`
call per row followed by one `JsonLinesCopyToEnd` call), the deflate
finish step — one `write_gzip` run with the `Z_FINISH` hint and zero
new input, followed by `deflateEnd` releasing the transform state —
occurs exactly once in the whole event stream, never among the per-row
write events, and only as the stream-end events. -/
theorem jsonlines_deflate_finish_once (rowJsons : List (List Nat)) :
    (copyToStreamEvents PgCompressAlgorithm.PG_COMPRESSION_GZIP
        rowJsons).countP (fun e => isFinishEvent e) = 1 ∧
    (∀ e ∈ rowJsons.flatMap
        (JsonLinesCopyToOneRowEvents PgCompressAlgorithm.PG_COMPRESSION_GZIP),
      isFinishEvent e = false) ∧
    JsonLinesCopyToEndEvents PgCompressAlgorithm.PG_COMPRESSION_GZIP =
      [DeflateEvent.deflateLoop ZFlushFlag.Z_FINISH [],
        DeflateEvent.deflateEndCall] := by
  have hrow : ∀ e ∈ rowJsons.flatMap
      (JsonLinesCopyToOneRowEvents PgCompressAlgorithm.PG_COMPRESSION_GZIP),
      isFinishEvent e = false := by
    intro e he
    rw [List.mem_flatMap] at he
    obtain ⟨r, _, he⟩ := he
    simp only [JsonLinesCopyToOneRowEvents, write_gzipEvents,
      List.mem_singleton] at he
    subst he
    rfl
  refine ⟨?_, hrow, rfl⟩
  unfold copyToStreamEvents
  rw [List.countP_append]
  have h0 : (rowJsons.flatMap
      (JsonLinesCopyToOneRowEvents PgCompressAlgorithm.PG_COMPRESSION_GZIP)).countP
      (fun e => isFinishEvent e) = 0 := by
    rw [List.countP_eq_zero]
    intro e he
    rw [hrow e he]
    exact Bool.false_ne_true
  rw [h0]
  rfl

/-- C2: the read-path start operation takes the file name's suffix from
its last dot and selects gzip exactly when that suffix is ".gz", which
for dot-containing names coincides with the name ending in ".gz"; but
for a file name containing no dot at all, `strrchr` returns NULL and
the `strcmp` call dereferences it — the operation crashes (modelled as
`none`) instead of selecting the uncompressed path. -/
theorem jsonlines_compression_suffix_detection :
    JsonLinesCopyFromStartCompression [100, 97, 116, 97] = none ∧
    ∀ f : List Nat, 46 ∈ f →
      (JsonLinesCopyFromStartCompression f).isSome = true ∧
      (JsonLinesCopyFromStartCompression f =
          some PgCompressAlgorithm.PG_COMPRESSION_GZIP ↔
        ∃ pre, f = pre ++ gzSuffixBytes) := by
  refine ⟨by decide, ?_⟩
  intro f hdot
  obtain ⟨t, ht⟩ := strrchrSuffix_isSome hdot
  constructor
  · simp only [JsonLinesCopyFromStartCompression, ht]
    by_cases he : t = gzSuffixBytes
    · rw [if_pos he]
      rfl
    · rw [if_neg he]
      rfl
  constructor
  · intro hgz
    simp only [JsonLinesCopyFromStartCompression, ht] at hgz
    by_cases he : t = gzSuffixBytes
    · subst he
      obtain ⟨pre, hpre⟩ := strrchrSuffix_suffix ht
      exact ⟨pre, hpre⟩
    · rw [if_neg he] at hgz
      exact absurd ((Option.some.injEq _ _).mp hgz)
        (by intro h; exact PgCompressAlgorithm.noConfusion h)
  · rintro ⟨pre, rfl⟩
    have hlast : strrchrSuffix (pre ++ 46 :: [103, 122]) 46 =
        some (46 :: [103, 122]) :=
      strrchrSuffix_append_last (by decide) pre
    simp only [JsonLinesCopyFromStartCompression,
      show pre ++ gzSuffixBytes = pre ++ 46 :: [103, 122] from rfl, hlast]
    rw [if_pos (show ([46, 103, 122] : List Nat) = gzSuffixBytes from rfl)]

theorem jsonlines_compression_suffix_detection_witness :
    JsonLinesCopyFromStartCompression [97, 46, 103, 122] =
      some PgCompressAlgorithm.PG_COMPRESSION_GZIP :=
  ((jsonlines_compression_suffix_detection).2 [97, 46, 103, 122]
    (by decide)).2.mpr ⟨[97], by decide⟩
